import Mathlib

/-
Verification development for the save-me-files directory-tree file copier.

The Rust sources (src/main.rs, src/files.rs, src/suffixes.rs, src/exclusions.rs)
are shallowly embedded as executable Lean definitions:

* Strings are Lean String values (lists of characters); the relevant Rust
  string operations (trim, ends_with, the suffix-validation character class)
  are modelled character by character.
* Filesystem paths are modelled as their lists of normal components.  All
  paths handled by the program are absolute (the orchestrator canonicalizes
  its arguments), so the root directory "/" is the empty component list and
  the path /a/b is the list consisting of "a" and "b".  Rust's component-wise
  Path::starts_with is List.isPrefixOf on component lists, Path::parent drops
  the last component (returning none for the root, where Rust returns None),
  and Path::strip_prefix removes a component-wise prefix.
* The directory tree walked by find_files_to_copy is an inductive tree of
  named files and directories; walkdir's filter_entry pruning is modelled by
  the walk not descending into rejected directories.
* The mutable filesystem touched by copy_files is a record of a directory
  predicate and a partial map from paths to file contents (lists of bytes).
  fs::create_dir and fs::copy are modelled with their success and failure
  conditions; rayon's parallel iteration over independent per-file copies is
  modelled by sequential iteration, and a panic (a .unwrap() failure) is
  modelled by an Option.none result that aborts the whole batch.
-/

/-! ## Characters and strings (models of the Rust string primitives) -/

/-- Model of Rust char::is_whitespace and of the regex class backslash-s,
restricted to the ASCII whitespace characters that can appear in the
claims' inputs. -/
def rust_is_whitespace (c : Char) : Bool :=
  c.isWhitespace || c = '\x0b' || c = '\x0c'

/-- Model of Rust str::trim: removes leading and trailing whitespace. -/
def rust_trim (s : String) : String :=
  ⟨((s.data.dropWhile rust_is_whitespace).reverse.dropWhile rust_is_whitespace).reverse⟩

/-- Model of Rust str::ends_with for string patterns: the pattern's
characters are a suffix of the string's characters (exact, case-sensitive
comparison). -/
def rust_ends_with (s suf : String) : Bool :=
  suf.data.isSuffixOf s.data

/-- Model of Rust str::starts_with for string patterns. -/
def rust_starts_with (s pre : String) : Bool :=
  pre.data.isPrefixOf s.data

/-- The COMMENT_LINE_PREFIX constant from main.rs (the name is shortened
here; its value is the two-character comment marker). -/
def comment_line_marker : String := "//"

/-! ## Suffix loading (src/suffixes.rs) -/

/-- The character class of VALID_SUFFIX_REGEX from suffixes.rs:
alphanumeric, underscore, dot, hyphen, or whitespace. -/
def valid_suffix_char (c : Char) : Bool :=
  c.isAlphanum || c = '_' || c = '.' || c = '-' || rust_is_whitespace c

/-- Whether a line matches VALID_SUFFIX_REGEX, i.e. the anchored pattern
requiring one or more characters of the class [a-zA-Z0-9_.-whitespace].
The plus quantifier means the empty string does not match. -/
def valid_suffix_match (s : String) : Bool :=
  s.length != 0 && s.data.all valid_suffix_char

/-- read_suffixes from suffixes.rs, for a file whose lines all decoded as
valid UTF-8: each line is trimmed and kept iff it matches the validation
regex.  (Invalid non-comment lines are additionally logged; logging is not
modelled.) -/
def read_suffixes (lines : List String) : List String :=
  (lines.map rust_trim).filter valid_suffix_match

/-- read_suffixes including its IO outcomes.  openOk models whether
File::open succeeded; each element of lines is the io::Result produced by
BufReader::lines, with none standing for an Err (in particular an invalid
UTF-8 line).  The outer Option is none when the function panics: the source
calls .unwrap() on every line result, so any Err line aborts the process
(the doc comment of the source says it panics on invalid UTF-8). -/
def read_suffixes_run (openOk : Bool) (lines : List (Option String)) :
    Option (Except Unit (List String)) :=
  if !openOk then some (.error ())
  else
    match lines.mapM id with
    | none => none
    | some ls => some (.ok (read_suffixes ls))

/-! ## Exclusion loading (src/exclusions.rs) -/

/-- Model of Rust Path::is_absolute on Unix: the path string begins with a
slash. -/
def path_is_absolute (p : String) : Bool :=
  match p.data with
  | '/' :: _ => true
  | _ => false

/-- The comment test in read_exclusions: the line (viewed through
PathBuf::from and to_string_lossy, which leave it unchanged) starts with
the comment marker. -/
def starts_with_comment (p : String) : Bool :=
  rust_starts_with p comment_line_marker

/-- The per-line filter of read_exclusions, mirroring its chain of early
returns.  is_dir_fs models Path::is_dir, i.e. which strings name existing
directories at load time. -/
def keep_exclusion (is_dir_fs : String → Bool) (p : String) : Bool :=
  if !path_is_absolute p then false
  else if starts_with_comment p then false
  else if !is_dir_fs p then false
  else true

/-- read_exclusions from exclusions.rs, for a file whose lines all decoded
as valid UTF-8: each line is trimmed and kept iff it is an absolute path,
not a comment, and an existing directory; kept entries are the trimmed
strings themselves (no canonicalization). -/
def read_exclusions (is_dir_fs : String → Bool) (lines : List String) : List String :=
  (lines.map rust_trim).filter (keep_exclusion is_dir_fs)

/-- read_exclusions including its IO outcomes, exactly as read_suffixes_run:
the source unwraps every line result, so an Err line (invalid UTF-8) panics
instead of returning an error. -/
def read_exclusions_run (is_dir_fs : String → Bool) (openOk : Bool)
    (lines : List (Option String)) : Option (Except Unit (List String)) :=
  if !openOk then some (.error ())
  else
    match lines.mapM id with
    | none => none
    | some ls => some (.ok (read_exclusions is_dir_fs ls))

/-! ## Paths as component lists -/

/-- The string form of a path given by its components: the components
joined by slashes (as in the source's string-prefix discussion: /data/foo
versus /data/foobar share a string prefix but not a component prefix). -/
def pathChars : List String → List Char
  | [] => []
  | [s] => s.data
  | s :: rest => s.data ++ '/' :: pathChars rest

/-- Model of Rust Path::parent on component lists: drop the last component;
the root (empty list) has no parent. -/
def parent (p : List String) : Option (List String) :=
  if p.isEmpty then none else some p.dropLast

/-- Model of Rust Path::strip_prefix on component lists: remove a
component-wise prefix, or fail. -/
def strip_pref (base p : List String) : Option (List String) :=
  if base.isPrefixOf p then some (p.drop base.length) else none

/-! ## The directory tree and the selector (src/files.rs, find_files_to_copy) -/

mutual
/-- A directory-tree entry: a regular file or a directory with children. -/
inductive FsTree where
  | file : String → FsTree
  | dir : String → FsForest → FsTree
/-- A list of sibling directory-tree entries. -/
inductive FsForest where
  | nil : FsForest
  | cons : FsTree → FsForest → FsForest
end

/-- The name (final path component) of a tree entry. -/
def FsTree.name : FsTree → String
  | .file n => n
  | .dir n _ => n

/-- Whether a tree entry is a directory (entry.file_type().is_dir()). -/
def FsTree.isDirEntry : FsTree → Bool
  | .file _ => false
  | .dir _ _ => true

/-- should_keep_entry from files.rs: keep the entry unless it is a
directory whose path starts (component-wise, as Path::starts_with does)
with one of the exclusions. -/
def should_keep_entry (is_dir : Bool) (p : List String) (exclusions : List (List String)) : Bool :=
  !is_dir || !(exclusions.any fun e => e.isPrefixOf p)

/-- should_copy_file from files.rs: the file name (entry.file_name(), the
final path component, not the full path) ends with at least one of the
suffixes. -/
def should_copy_file (filename : String) (suffixes : List String) : Bool :=
  suffixes.any fun s => rust_ends_with filename s

mutual
/-- The WalkDir traversal of find_files_to_copy, for the entry with path p
and contents t: filter_entry applies should_keep_entry to every entry
(pruning rejected directories without descending), then regular files are
kept iff should_copy_file accepts their name. -/
def walkTree (sfx : List String) (ex : List (List String)) (p : List String) :
    FsTree → List (List String)
  | .file _ =>
    if should_keep_entry false p ex then
      (if should_copy_file (p.getLastD "/") sfx then [p] else [])
    else []
  | .dir _ cs =>
    if should_keep_entry true p ex then walkForest sfx ex p cs else []
/-- The traversal of the children of a directory with path p. -/
def walkForest (sfx : List String) (ex : List (List String)) (p : List String) :
    FsForest → List (List String)
  | .nil => []
  | .cons c cs => walkTree sfx ex (p ++ [c.name]) c ++ walkForest sfx ex p cs
end

/-- find_files_to_copy from files.rs: walk the tree rooted at
src_directory and collect the paths of the regular files that pass the
exclusion pruning and the suffix filter. -/
def find_files_to_copy (src_directory : List String) (t : FsTree)
    (suffixes : List String) (exclusions : List (List String)) : List (List String) :=
  walkTree suffixes exclusions src_directory t

mutual
/-- The same traversal with the suffix filter removed: every reachable
regular file (used to state what a run with the match-everything suffix
selects). -/
def walkAllTree (ex : List (List String)) (p : List String) : FsTree → List (List String)
  | .file _ => if should_keep_entry false p ex then [p] else []
  | .dir _ cs => if should_keep_entry true p ex then walkAllForest ex p cs else []
/-- Children counterpart of walkAllTree. -/
def walkAllForest (ex : List (List String)) (p : List String) : FsForest → List (List String)
  | .nil => []
  | .cons c cs => walkAllTree ex (p ++ [c.name]) c ++ walkAllForest ex p cs
end

/-! ## Size accounting (src/files.rs, calculate_files_size) -/

/-- Sum of a list of u64 values as computed by Iterator::sum on u64
(wrapping at 2 to the 64th). -/
def u64_sum (l : List Nat) : Nat :=
  l.foldl (fun a b => (a + b) % 2 ^ 64) 0

/-- calculate_files_size from files.rs: query each path's metadata, keep
the lengths of the successful queries (failures are logged and skipped),
and sum them.  metadata p = none models a failed fs::metadata call. -/
def calculate_files_size (metadata : List String → Option Nat)
    (files_paths : List (List String)) : Nat :=
  u64_sum (files_paths.filterMap metadata)

/-! ## The mutable filesystem and the copier (src/files.rs, copy_files) -/

/-- The state of the filesystem during the copy phase: which paths are
directories, and the contents (byte lists) of the regular files. -/
structure FS where
  isDir : List String → Bool
  file : List String → Option (List Nat)

/-- Model of std::fs::create_dir: fails if the path already exists (as a
directory or as a file) or if its parent is missing or not a directory;
otherwise records the new directory. -/
def fs_create_dir (fs : FS) (d : List String) : Except Unit FS :=
  if fs.isDir d || (fs.file d).isSome then .error ()
  else
    match parent d with
    | none => .error ()
    | some par =>
      if fs.isDir par then
        .ok { isDir := fun x => decide (x = d) || fs.isDir x, file := fs.file }
      else .error ()

/-- Model of std::fs::copy: fails if the source is not a regular file, or
the destination is a directory, or the destination's parent is missing or
not a directory; otherwise writes the source's bytes at the destination
(overwriting an existing file). -/
def fs_copy (fs : FS) (s d : List String) : Except Unit FS :=
  if fs.isDir s then .error ()
  else
    match fs.file s with
    | none => .error ()
    | some content =>
      if fs.isDir d then .error ()
      else
        match parent d with
        | none => .error ()
        | some par =>
          if fs.isDir par then
            .ok { isDir := fs.isDir,
                  file := fun x => if x = d then some content else fs.file x }
          else .error ()

/-- The loop of create_directories from files.rs: starting from the
directory path dir_path, push each remaining component; if the extended
path is already a directory, continue; otherwise call fs::create_dir, and
on any error log a warning and break out of the loop (keeping the
directories created so far). -/
def create_dirs_loop (fs : FS) (dir_path : List String) : List String → FS
  | [] => fs
  | c :: cs =>
    if fs.isDir (dir_path ++ [c]) then create_dirs_loop fs (dir_path ++ [c]) cs
    else
      match fs_create_dir fs (dir_path ++ [c]) with
      | .ok fs2 => create_dirs_loop fs2 (dir_path ++ [c]) cs
      | .error _ => fs

/-- create_directories from files.rs: take the parent of dst (unwrap: none
models the panic when dst has no parent), strip the dst_root prefix from it
(unwrap: none models the panic when dst_root is not a prefix), and run the
component-creation loop from dst_root. -/
def create_directories (fs : FS) (dst_root dst : List String) : Option FS :=
  match parent dst with
  | none => none
  | some par =>
    match strip_pref dst_root par with
    | none => none
    | some comps => some (create_dirs_loop fs dst_root comps)

/-- copy_file from files.rs: attempt fs::copy; on failure only log, leaving
the filesystem unchanged. -/
def copy_file (fs : FS) (src dst : List String) : FS :=
  match fs_copy fs src dst with
  | .ok fs2 => fs2
  | .error _ => fs

/-- The body applied by copy_files to one path: strip the src_directory
prefix (unwrap: none models the panic that aborts the batch), join the
remainder onto dst_directory, create the destination's ancestor
directories, then copy the file. -/
def process_path (fs : FS) (src_directory dst_directory p : List String) : Option FS :=
  match strip_pref src_directory p with
  | none => none
  | some stripped =>
    match create_directories fs dst_directory (dst_directory ++ stripped) with
    | none => none
    | some fs2 => some (copy_file fs2 p (dst_directory ++ stripped))

/-- copy_files from files.rs.  The rayon parallel iteration over the
independent per-file copies is modelled sequentially; a panic in any
per-file body (an Option.none from process_path) aborts the whole batch,
modelled by the none result. -/
def copy_files (fs : FS) (src_directory dst_directory : List String)
    (paths : List (List String)) : Option FS :=
  paths.foldl (fun acc p => acc.bind fun g => process_path g src_directory dst_directory p)
    (some fs)

/-- Outcome of one iteration of the create_directories loop. -/
inductive DirStepOutcome where
  | succeeded : DirStepOutcome
  | failedBreak : DirStepOutcome
deriving DecidableEq

/-- One iteration of the create_directories loop observed with two
filesystem states: fs1 is the state at the is_dir check and fs2 the state
at the fs::create_dir call.  The two may differ when another rayon worker
runs between the two calls (the copies share the filesystem).  succeeded
means the loop continues to the next component; failedBreak means the
error branch is taken: the failure is logged and the loop breaks. -/
def create_dir_step (fs1 fs2 : FS) (dir_path : List String) : DirStepOutcome × FS :=
  if fs1.isDir dir_path then (.succeeded, fs2)
  else
    match fs_create_dir fs2 dir_path with
    | .ok fs3 => (.succeeded, fs3)
    | .error _ => (.failedBreak, fs2)

/-! ## Basic facts about the embedded operations -/

theorem rust_ends_with_iff (s suf : String) :
    rust_ends_with s suf = true ↔ ∃ pre : List Char, s.data = pre ++ suf.data := by
  rw [rust_ends_with, List.isSuffixOf_iff_suffix]
  constructor
  · rintro ⟨t, ht⟩; exact ⟨t, ht.symm⟩
  · rintro ⟨t, ht⟩; exact ⟨t, ht.symm⟩

theorem rust_ends_with_empty (s : String) : rust_ends_with s "" = true := by
  rw [rust_ends_with_iff]
  exact ⟨s.data, by simp⟩

/-- C7: Suffix matching is an exact, case-sensitive substring-at-end test
against the file name: should_copy_file accepts a name iff some configured
suffix is character-for-character a tail of the name.  In particular
report.txt is selected by the suffix .txt but not by txt2, x.txt2 is not
selected by .txt, and a.TXT is not selected by .txt (case sensitivity). -/
theorem should_copy_file_tail_exact :
    (∀ (filename : String) (sfx : List String),
      should_copy_file filename sfx = true ↔
        ∃ s ∈ sfx, ∃ pre : List Char, filename.data = pre ++ s.data)
    ∧ should_copy_file "report.txt" [".txt"] = true
    ∧ should_copy_file "report.txt" ["txt2"] = false
    ∧ should_copy_file "x.txt2" [".txt"] = false
    ∧ should_copy_file "a.TXT" [".txt"] = false := by
  refine ⟨?_, by decide, by decide, by decide, by decide⟩
  intro filename sfx
  rw [should_copy_file, List.any_eq_true]
  constructor
  · rintro ⟨s, hs, h⟩; exact ⟨s, hs, (rust_ends_with_iff _ _).mp h⟩
  · rintro ⟨s, hs, h⟩; exact ⟨s, hs, (rust_ends_with_iff _ _).mpr h⟩

/-- C2 counterexample: a suffix file containing lines that are empty after
trimming (an empty line and a whitespace-only line).  The empty suffix does
NOT appear in the loaded suffix set: the validation regex requires at least
one character, so those lines are dropped. -/
theorem empty_suffix_line_dropped_cex :
    read_suffixes ["", "  ", ".txt"] = [".txt"]
    ∧ "" ∉ read_suffixes ["", "  ", ".txt"] := by
  constructor
  · decide
  · decide

/-- C6: the loaders do not return a recoverable error on a line that fails
to decode (invalid UTF-8); they panic, aborting the process (modelled by
the none result).  A recoverable error is returned only when opening the
file fails. -/
theorem invalid_utf8_line_panics :
    read_suffixes_run true [some ".txt", none] = none
    ∧ read_exclusions_run (fun _ => true) true [some "/tmp", none] = none
    ∧ read_suffixes_run false [] = some (.error ())
    ∧ read_exclusions_run (fun _ => true) false [] = some (.error ()) :=
  ⟨rfl, rfl, rfl, rfl⟩

/-- The filesystem states of the directory-creation race: fs_race_before is
what worker A sees at its is_dir check (the destination root d exists, the
wanted subdirectory d/a does not). -/
def fs_race_before : FS :=
  { isDir := fun x => decide (x = ([] : List String)) || decide (x = ["d"]),
    file := fun _ => none }

/-- The state at worker A's fs::create_dir call: worker B has created d/a
in between (the interference only adds a directory). -/
def fs_race_after : FS :=
  { isDir := fun x =>
      decide (x = ([] : List String)) || decide (x = ["d"]) || decide (x = ["d", "a"]),
    file := fun _ => none }

/-- C1: in the create_directories loop, a destination ancestor directory
that already exists at the is_dir check is skipped as success, but when the
directory appears between the is_dir check and the fs::create_dir call
(another worker racing), the AlreadyExists error is treated as a per-file
directory-creation failure: the error branch logs a warning and breaks out
of the loop, instead of treating "already exists" as success. -/
theorem create_dir_race_not_tolerated :
    create_dir_step fs_race_before fs_race_after ["d", "a"] = (.failedBreak, fs_race_after)
    ∧ create_dir_step fs_race_after fs_race_after ["d", "a"] = (.succeeded, fs_race_after)
    ∧ (∀ x, fs_race_before.isDir x = true → fs_race_after.isDir x = true) := by
  refine ⟨rfl, rfl, ?_⟩
  intro x hx
  simp only [fs_race_before, Bool.or_eq_true, decide_eq_true_eq] at hx
  rcases hx with h | h <;> simp [fs_race_after, h]

/-! ## Size accumulator: C9 -/

theorem u64_sum_aux (l : List Nat) :
    ∀ a, a < 2 ^ 64 → l.foldl (fun a b => (a + b) % 2 ^ 64) a = (a + l.sum) % 2 ^ 64 := by
  induction l with
  | nil =>
    intro a ha
    simp only [List.foldl_nil, List.sum_nil, Nat.add_zero]
    exact (Nat.mod_eq_of_lt ha).symm
  | cons b l ih =>
    intro a ha
    rw [List.foldl_cons, ih _ (Nat.mod_lt _ (by norm_num)), Nat.mod_add_mod, List.sum_cons,
      Nat.add_assoc]

theorem u64_sum_eq_sum (l : List Nat) (h : l.sum < 2 ^ 64) : u64_sum l = l.sum := by
  rw [u64_sum, u64_sum_aux l 0 (by norm_num), Nat.zero_add, Nat.mod_eq_of_lt h]

theorem filterMap_all_some (metadata : List String → Option Nat) (sizes : List String → Nat) :
    ∀ paths : List (List String), (∀ p ∈ paths, metadata p = some (sizes p)) →
      paths.filterMap metadata = paths.map sizes := by
  intro paths
  induction paths with
  | nil => intro _; rfl
  | cons q l ih =>
    intro h
    rw [List.filterMap_cons, h q (by simp), List.map_cons,
      ih fun p hp => h p (List.mem_cons_of_mem _ hp)]

theorem filterMap_one_missing (metadata : List String → Option Nat)
    (sizes : List String → Nat) (d : List String) :
    ∀ paths : List (List String),
      (∀ p ∈ paths, metadata p = if p = d then none else some (sizes p)) →
      paths.filterMap metadata = (paths.filter fun p => p ≠ d).map sizes := by
  intro paths
  induction paths with
  | nil => intro _; rfl
  | cons q l ih =>
    intro h
    have hq := h q (by simp)
    have hrest := ih fun p hp => h p (List.mem_cons_of_mem _ hp)
    by_cases hqd : q = d
    · rw [List.filterMap_cons, hq, if_pos hqd, List.filter_cons_of_neg (by simp [hqd]), hrest]
    · rw [List.filterMap_cons, hq, if_neg hqd, List.filter_cons_of_pos (by simp [hqd]),
        List.map_cons, hrest]

/-- C9: calculate_files_size returns the exact sum of the sizes when every
metadata query succeeds; when the metadata query fails for one path (for
example a file deleted between selection and sizing), only that path's
contribution is excluded and the function still returns the sum of the
rest without error. -/
theorem calculate_files_size_exact (metadata : List String → Option Nat)
    (sizes : List String → Nat) (paths : List (List String)) (d : List String) :
    ((∀ p ∈ paths, metadata p = some (sizes p)) → (paths.map sizes).sum < 2 ^ 64 →
      calculate_files_size metadata paths = (paths.map sizes).sum)
    ∧ ((∀ p ∈ paths, metadata p = if p = d then none else some (sizes p)) →
      (((paths.filter fun p => p ≠ d).map sizes).sum < 2 ^ 64) →
      calculate_files_size metadata paths = ((paths.filter fun p => p ≠ d).map sizes).sum) := by
  constructor
  · intro hall hlt
    rw [calculate_files_size, filterMap_all_some metadata sizes paths hall, u64_sum_eq_sum _ hlt]
  · intro hall hlt
    rw [calculate_files_size, filterMap_one_missing metadata sizes d paths hall,
      u64_sum_eq_sum _ hlt]

/-- Witness for C9 at concrete inputs: three files of sizes 3, 5 and 7; the
exact-sum part with all metadata available, and the one-file-missing part
where the file of size 5 has been deleted. -/
theorem calculate_files_size_exact_witness :
    calculate_files_size (fun p => some (if p = [""] then 0 else p.length + 2))
        [["a"], ["b", "b"], ["c", "c", "c", "c", "c"]] =
      (([["a"], ["b", "b"], ["c", "c", "c", "c", "c"]].map
        fun p : List String => if p = [""] then 0 else p.length + 2).sum)
    ∧ calculate_files_size
        (fun p => if p = ["b", "b"] then none else some (if p = [""] then 0 else p.length + 2))
        [["a"], ["b", "b"], ["c", "c", "c", "c", "c"]] =
      ((([["a"], ["b", "b"], ["c", "c", "c", "c", "c"]].filter
          fun p => p ≠ ["b", "b"]).map
        fun p : List String => if p = [""] then 0 else p.length + 2).sum) :=
  ⟨(calculate_files_size_exact (fun p => some (if p = [""] then 0 else p.length + 2))
      (fun p => if p = [""] then 0 else p.length + 2)
      [["a"], ["b", "b"], ["c", "c", "c", "c", "c"]] ["b", "b"]).1
    (by decide) (by decide),
   (calculate_files_size_exact
      (fun p => if p = ["b", "b"] then none else some (if p = [""] then 0 else p.length + 2))
      (fun p => if p = [""] then 0 else p.length + 2)
      [["a"], ["b", "b"], ["c", "c", "c", "c", "c"]] ["b", "b"]).2
    (by decide) (by decide)⟩

/-! ## Exclusion loader: C8 -/

theorem keep_exclusion_iff (fs : String → Bool) (p : String) :
    keep_exclusion fs p = true ↔
      (path_is_absolute p = true ∧ starts_with_comment p = false ∧ fs p = true) := by
  cases h1 : path_is_absolute p <;> cases h2 : starts_with_comment p <;> cases h3 : fs p <;>
    simp [keep_exclusion, h1, h2, h3]

/-- C8: for a line of the exclusion file, its trimmed form is in the loaded
exclusion set iff it is absolute, not comment-prefixed, and an existing
directory at load time; and every member of the loaded set is exactly the
trimmed form of some input line (stored as-is, with no further
canonicalization). -/
theorem read_exclusions_membership (fs : String → Bool) (lines : List String) (line : String)
    (h : line ∈ lines) :
    (rust_trim line ∈ read_exclusions fs lines ↔
      (path_is_absolute (rust_trim line) = true
        ∧ starts_with_comment (rust_trim line) = false
        ∧ fs (rust_trim line) = true))
    ∧ (∀ q ∈ read_exclusions fs lines, ∃ l ∈ lines, q = rust_trim l) := by
  constructor
  · rw [read_exclusions, List.mem_filter, ← keep_exclusion_iff]
    constructor
    · exact fun hmem => hmem.2
    · exact fun hkeep => ⟨List.mem_map_of_mem rust_trim h, hkeep⟩
  · intro q hq
    rw [read_exclusions, List.mem_filter, List.mem_map] at hq
    obtain ⟨⟨l, hl, hlq⟩, _⟩ := hq
    exact ⟨l, hl, hlq.symm⟩

/-- Witness for C8 at a concrete exclusion file: the membership criterion
evaluated for the line containing /tmp/x followed by a trailing blank, on a
filesystem where /tmp/x is an existing directory. -/
theorem read_exclusions_membership_witness :
    (rust_trim "/tmp/x " ∈ read_exclusions (fun s => s = "/tmp/x") ["/tmp/x ", "rel", "//c"] ↔
      (path_is_absolute (rust_trim "/tmp/x ") = true
        ∧ starts_with_comment (rust_trim "/tmp/x ") = false
        ∧ (fun s : String => (s = "/tmp/x" : Bool)) (rust_trim "/tmp/x ") = true))
    ∧ (∀ q ∈ read_exclusions (fun s => s = "/tmp/x") ["/tmp/x ", "rel", "//c"],
        ∃ l ∈ ["/tmp/x ", "rel", "//c"], q = rust_trim l) :=
  read_exclusions_membership (fun s => s = "/tmp/x") ["/tmp/x ", "rel", "//c"] "/tmp/x "
    (by decide)

/-! ## Walk lemmas and the selector claims -/

theorem should_keep_entry_file (p : List String) (ex : List (List String)) :
    should_keep_entry false p ex = true := rfl

theorem should_keep_entry_dir_iff (p : List String) (ex : List (List String)) :
    should_keep_entry true p ex = true ↔ ∀ e ∈ ex, ¬ e <+: p := by
  rw [should_keep_entry]
  simp [List.any_eq_true, List.isPrefixOf_iff_prefix]

mutual
theorem walkTree_empty_suffix (sfx : List String) (ex : List (List String))
    (h : "" ∈ sfx) (p : List String) (t : FsTree) :
    walkTree sfx ex p t = walkAllTree ex p t := by
  cases t with
  | file n =>
    have hc : should_copy_file (p.getLastD "/") sfx = true := by
      rw [should_copy_file, List.any_eq_true]
      exact ⟨"", h, rust_ends_with_empty _⟩
    simp only [walkTree, walkAllTree, hc]
    simp
  | dir n cs =>
    simp only [walkTree, walkAllTree]
    cases hk : should_keep_entry true p ex with
    | true => simp only [if_true]; exact walkForest_empty_suffix sfx ex h p cs
    | false => simp
theorem walkForest_empty_suffix (sfx : List String) (ex : List (List String))
    (h : "" ∈ sfx) (p : List String) (cs : FsForest) :
    walkForest sfx ex p cs = walkAllForest ex p cs := by
  cases cs with
  | nil => rfl
  | cons c cs' =>
    simp only [walkForest, walkAllForest]
    rw [walkTree_empty_suffix sfx ex h (p ++ [c.name]) c,
      walkForest_empty_suffix sfx ex h p cs']
end

/-- Tree used by the C2 witness: a directory with two files whose names
match no ordinary suffix. -/
def c2_tree : FsTree := .dir "r" (.cons (.file "a.bin") (.cons (.file "b") .nil))

/-- C2 amended: a suffix-file line that is empty after trimming is dropped
by the validation regex (which requires at least one character), so the
empty suffix never appears in a loaded suffix set; nevertheless the empty
suffix, when present in the suffix set (as in the single-empty-suffix
default used when no suffix file is supplied), matches every filename: the
selection equals the walk that keeps every reachable regular file. -/
theorem empty_suffix_never_loaded_but_matches_all :
    (∀ lines : List String, "" ∉ read_suffixes lines)
    ∧ (∀ (sfx : List String) (ex : List (List String)) (p : List String) (t : FsTree),
        "" ∈ sfx → walkTree sfx ex p t = walkAllTree ex p t) := by
  constructor
  · intro lines h
    rw [read_suffixes, List.mem_filter] at h
    exact absurd h.2 (by decide)
  · intro sfx ex p t h
    exact walkTree_empty_suffix sfx ex h p t

/-- Witness for C2 amended at a concrete tree: the selection with the
default suffix set consisting of the single empty suffix equals the
collect-every-file walk. -/
theorem empty_suffix_matches_all_witness :
    walkTree [""] [] ["r"] c2_tree = walkAllTree [] ["r"] c2_tree :=
  empty_suffix_never_loaded_but_matches_all.2 [""] [] ["r"] c2_tree (by decide)

mutual
theorem walkTree_no_excl (sfx : List String) (ex : List (List String)) (p : List String)
    (t : FsTree) (h : ∀ q, p <+: q → ∀ e ∈ ex, ¬ e <+: q) :
    walkTree sfx ex p t = walkTree sfx [] p t := by
  cases t with
  | file n => simp [walkTree, should_keep_entry]
  | dir n cs =>
    have hk : should_keep_entry true p ex = true :=
      (should_keep_entry_dir_iff p ex).mpr fun e he => h p (List.prefix_refl p) e he
    have hk2 : should_keep_entry true p [] = true := by simp [should_keep_entry]
    simp only [walkTree, hk, hk2, if_true]
    exact walkForest_no_excl sfx ex p cs h
theorem walkForest_no_excl (sfx : List String) (ex : List (List String)) (p : List String)
    (cs : FsForest) (h : ∀ q, p <+: q → ∀ e ∈ ex, ¬ e <+: q) :
    walkForest sfx ex p cs = walkForest sfx [] p cs := by
  cases cs with
  | nil => rfl
  | cons c cs' =>
    simp only [walkForest]
    rw [walkTree_no_excl sfx ex (p ++ [c.name]) c
        (fun q hq e he => h q ((List.prefix_append p [c.name]).trans hq) e he),
      walkForest_no_excl sfx ex p cs' h]
end

theorem pathChars_append : ∀ (D zs : List String), D ≠ [] → zs ≠ [] →
    pathChars (D ++ zs) = pathChars D ++ '/' :: pathChars zs
  | [], _, hD, _ => absurd rfl hD
  | [d], zs, _, hzs => by
    obtain ⟨z, zs', rfl⟩ : ∃ z zs', zs = z :: zs' := by
      cases zs with
      | nil => exact absurd rfl hzs
      | cons z zs' => exact ⟨z, zs', rfl⟩
    simp [pathChars]
  | d :: d' :: D', zs, _, hzs => by
    have ih := pathChars_append (d' :: D') zs (by simp) hzs
    simp only [List.cons_append] at ih ⊢
    simp only [pathChars, ih, List.cons_append, List.append_assoc]

/-- C3: an exclusion E whose string form is a prefix of the string form of
a directory D, without E being a component-wise path prefix of D (such as
/data/foo versus /data/foobar), has no effect on the selection below D:
the walk below D with exclusion set containing only E equals the walk with
no exclusions, because should_keep_entry matches component-wise, never by
raw string prefix. -/
theorem string_prefix_collision_not_excluded (sfx : List String) (t : FsTree)
    (E D : List String) (hD : D ≠ [])
    (h1 : pathChars E <+: pathChars D) (h2 : ¬ E <+: D) :
    walkTree sfx [E] D t = walkTree sfx [] D t := by
  apply walkTree_no_excl
  intro q hq e he hEq
  rw [List.mem_singleton] at he
  subst he
  by_cases hle : e.length ≤ D.length
  · exact h2 (List.prefix_of_prefix_length_le hEq hq hle)
  · push_neg at hle
    have hDE : D <+: e := List.prefix_of_prefix_length_le hq hEq (le_of_lt hle)
    obtain ⟨zs, hzs⟩ := hDE
    have hzsne : zs ≠ [] := by
      rintro rfl
      rw [List.append_nil] at hzs
      subst hzs
      exact absurd rfl (Nat.ne_of_gt hle)
    have hchars : pathChars e = pathChars D ++ '/' :: pathChars zs := by
      rw [← hzs]
      exact pathChars_append D zs hD hzsne
    have hlen := h1.length_le
    rw [hchars, List.length_append, List.length_cons] at hlen
    omega

/-- Tree used by the C3 witness: the directory /data/foobar containing one
text file. -/
def c3_tree : FsTree := .dir "foobar" (.cons (.file "x.txt") .nil)

/-- Witness for C3 at the spec's concrete collision: exclusion /data/foo
versus directory /data/foobar, whose string forms share a prefix while
their component lists do not. -/
theorem string_prefix_collision_witness :
    walkTree [".txt"] [["data", "foo"]] ["data", "foobar"] c3_tree =
      walkTree [".txt"] [] ["data", "foobar"] c3_tree :=
  string_prefix_collision_not_excluded [".txt"] c3_tree ["data", "foo"] ["data", "foobar"]
    (by decide) (by decide) (by decide)

mutual
theorem walkTree_excl (sfx : List String) (ex : List (List String)) (p : List String)
    (t : FsTree) : ∀ f ∈ walkTree sfx ex p t, ∀ e ∈ ex, e <+: f → e = f ∨ (e <+: p ∧ e ≠ p) := by
  cases t with
  | file n =>
    intro f hf e he hef
    have hfp : f = p := by
      simp only [walkTree] at hf
      split at hf
      · split at hf
        · rw [List.mem_singleton] at hf; exact hf
        · simp at hf
      · simp at hf
    subst hfp
    by_cases hep : e = f
    · exact Or.inl hep
    · exact Or.inr ⟨hef, hep⟩
  | dir n cs =>
    intro f hf e he hef
    simp only [walkTree] at hf
    split at hf
    case isTrue hk =>
      exact Or.inl
        (walkForest_excl sfx ex p cs ((should_keep_entry_dir_iff p ex).mp hk) f hf e he hef)
    case isFalse hk => simp at hf
theorem walkForest_excl (sfx : List String) (ex : List (List String)) (p : List String)
    (cs : FsForest) (hkeep : ∀ e ∈ ex, ¬ e <+: p) :
    ∀ f ∈ walkForest sfx ex p cs, ∀ e ∈ ex, e <+: f → e = f := by
  cases cs with
  | nil => intro f hf; simp [walkForest] at hf
  | cons c cs' =>
    intro f hf e he hef
    simp only [walkForest, List.mem_append] at hf
    rcases hf with hf | hf
    · rcases walkTree_excl sfx ex (p ++ [c.name]) c f hf e he hef with h | ⟨hp, hne⟩
      · exact h
      · rcases List.prefix_concat_iff.mp hp with h | h
        · exact absurd h hne
        · exact absurd h (hkeep e he)
    · exact walkForest_excl sfx ex p cs' hkeep f hf e he hef
end

/-- C4: when the source root is a directory, an exclusion is never a
proper component-wise prefix of a selected file's path: any file located
strictly beneath an excluded directory (the exclusion equal to or an
ancestor of that directory) is absent from the selection returned by
find_files_to_copy, whatever the suffix set, because the excluded subtree
is pruned rather than descended into. -/
theorem excluded_subtree_never_selected (src : List String) (t : FsTree)
    (sfx : List String) (ex : List (List String)) (e f : List String)
    (ht : t.isDirEntry = true) (he : e ∈ ex)
    (hf : f ∈ find_files_to_copy src t sfx ex) (hp : e <+: f) : e = f := by
  cases t with
  | file n => simp [FsTree.isDirEntry] at ht
  | dir n cs =>
    rw [find_files_to_copy] at hf
    simp only [walkTree] at hf
    split at hf
    case isTrue hk =>
      exact walkForest_excl sfx ex src cs ((should_keep_entry_dir_iff src ex).mp hk) f hf e he hp
    case isFalse hk => simp at hf

/-- Tree used by the C4 witness: a directory containing one text file. -/
def c4_tree : FsTree := .dir "r" (.cons (.file "a.txt") .nil)

/-- Witness for C4: with the exclusion equal to the selected file's own
path (the only way the hypotheses of the theorem can all hold), the
conclusion forces equality; no strictly-beneath file can be selected. -/
theorem excluded_subtree_witness :
    (["r", "a.txt"] : List String) = ["r", "a.txt"] :=
  excluded_subtree_never_selected ["r"] c4_tree [".txt"] [["r", "a.txt"]]
    ["r", "a.txt"] ["r", "a.txt"] (by decide) (by decide) (by decide) (by decide)

/-! ## Copier lemmas -/

theorem strip_pref_append (base l : List String) : strip_pref base (base ++ l) = some l := by
  rw [strip_pref, if_pos ((List.isPrefixOf_iff_prefix).mpr (List.prefix_append base l)),
    List.drop_left]

theorem strip_pref_none (base p : List String) (h : ¬ base <+: p) : strip_pref base p = none := by
  rw [strip_pref, if_neg]
  exact fun hc => h ((List.isPrefixOf_iff_prefix).mp hc)

theorem parent_append (base rest : List String) (h : rest ≠ []) :
    parent (base ++ rest) = some (base ++ rest.dropLast) := by
  rw [parent, if_neg (by simp [h]), List.dropLast_append_of_ne_nil base h]

theorem parent_concat (cur : List String) (c : String) : parent (cur ++ [c]) = some cur := by
  rw [parent, if_neg (by simp), List.dropLast_concat]

theorem append_take_succ (cur : List String) (c : String) (cs : List String) (k : Nat) :
    cur ++ (c :: cs).take (k + 1) = (cur ++ [c]) ++ cs.take k := by
  rw [List.take_succ_cons, List.append_assoc, List.singleton_append]

theorem fs_create_dir_ok (fs : FS) (d : List String) (g : FS) (h : fs_create_dir fs d = .ok g) :
    g.file = fs.file ∧ (∀ x, g.isDir x = (decide (x = d) || fs.isDir x)) := by
  rw [fs_create_dir] at h
  split at h
  · exact absurd h (by simp)
  · split at h
    · exact absurd h (by simp)
    · split at h
      · injection h with h2
        subst h2
        exact ⟨rfl, fun x => rfl⟩
      · exact absurd h (by simp)

theorem fs_create_dir_succeeds (fs : FS) (cur : List String) (c : String)
    (hnd : fs.isDir (cur ++ [c]) = false) (hnf : fs.file (cur ++ [c]) = none)
    (hpar : fs.isDir cur = true) :
    fs_create_dir fs (cur ++ [c]) =
      .ok { isDir := fun x => decide (x = cur ++ [c]) || fs.isDir x, file := fs.file } := by
  simp [fs_create_dir, hnd, hnf, parent_concat, hpar]

theorem create_dirs_loop_file : ∀ (comps : List String) (fs : FS) (cur : List String),
    (create_dirs_loop fs cur comps).file = fs.file
  | [], fs, cur => rfl
  | c :: cs, fs, cur => by
    rw [create_dirs_loop]
    split
    · exact create_dirs_loop_file cs fs (cur ++ [c])
    · cases hcd : fs_create_dir fs (cur ++ [c]) with
      | ok fs2 =>
        rw [create_dirs_loop_file cs fs2 (cur ++ [c]), (fs_create_dir_ok fs _ fs2 hcd).1]
      | error e => rfl

theorem create_dirs_loop_mono : ∀ (comps : List String) (fs : FS) (cur x : List String),
    fs.isDir x = true → (create_dirs_loop fs cur comps).isDir x = true
  | [], fs, cur, x => fun h => h
  | c :: cs, fs, cur, x => by
    intro hx
    rw [create_dirs_loop]
    split
    · exact create_dirs_loop_mono cs fs (cur ++ [c]) x hx
    · cases hcd : fs_create_dir fs (cur ++ [c]) with
      | ok fs2 =>
        refine create_dirs_loop_mono cs fs2 (cur ++ [c]) x ?_
        rw [(fs_create_dir_ok fs _ fs2 hcd).2 x, hx, Bool.or_true]
      | error e => exact hx

theorem create_dirs_loop_new : ∀ (comps : List String) (fs : FS) (cur x : List String),
    (create_dirs_loop fs cur comps).isDir x = true →
    fs.isDir x = true ∨ ∃ k, 0 < k ∧ k ≤ comps.length ∧ x = cur ++ comps.take k
  | [], fs, cur, x => fun h => Or.inl h
  | c :: cs, fs, cur, x => by
    rw [create_dirs_loop]
    split
    · intro h
      rcases create_dirs_loop_new cs fs (cur ++ [c]) x h with h | ⟨k, hk0, hkle, hx⟩
      · exact Or.inl h
      · refine Or.inr ⟨k + 1, by omega, by simp; omega, ?_⟩
        rw [append_take_succ]
        exact hx
    · cases hcd : fs_create_dir fs (cur ++ [c]) with
      | ok fs2 =>
        intro h
        rcases create_dirs_loop_new cs fs2 (cur ++ [c]) x h with h | ⟨k, hk0, hkle, hx⟩
        · rw [(fs_create_dir_ok fs _ fs2 hcd).2 x] at h
          rcases Bool.or_eq_true_iff.mp h with h | h
          · refine Or.inr ⟨1, one_pos, by simp, ?_⟩
            rw [List.take_succ_cons, List.take_zero]
            exact of_decide_eq_true h
          · exact Or.inl h
        · refine Or.inr ⟨k + 1, by omega, by simp; omega, ?_⟩
          rw [append_take_succ]
          exact hx
      | error e => exact Or.inl

theorem create_dirs_loop_chain : ∀ (comps : List String) (fs : FS) (cur : List String),
    fs.isDir cur = true →
    (∀ k, 0 < k → k ≤ comps.length → fs.file (cur ++ comps.take k) = none) →
    ∀ k, k ≤ comps.length → (create_dirs_loop fs cur comps).isDir (cur ++ comps.take k) = true
  | [], fs, cur => by
    intro hcur _ k hk
    simpa [create_dirs_loop] using hcur
  | c :: cs, fs, cur => by
    intro hcur hfiles k hk
    rw [create_dirs_loop]
    split
    case isTrue hd =>
      have ih := create_dirs_loop_chain cs fs (cur ++ [c]) hd (fun k2 h0 hle => by
        have h2 := hfiles (k2 + 1) (by omega) (by simp; omega)
        rwa [append_take_succ] at h2)
      cases k with
      | zero =>
        simpa using create_dirs_loop_mono cs fs (cur ++ [c]) cur hcur
      | succ k2 =>
        rw [append_take_succ]
        exact ih k2 (by simp at hk; omega)
    case isFalse hd =>
      have hd' : fs.isDir (cur ++ [c]) = false := by
        rwa [Bool.not_eq_true] at hd
      have h1 : fs.file (cur ++ [c]) = none := by
        have := hfiles 1 one_pos (by simp)
        rwa [List.take_succ_cons, List.take_zero] at this
      cases hcd : fs_create_dir fs (cur ++ [c]) with
      | error e =>
        rw [fs_create_dir_succeeds fs cur c hd' h1 hcur] at hcd
        exact absurd hcd (by simp)
      | ok fs2 =>
        obtain ⟨hfile2, hdir2⟩ := fs_create_dir_ok fs _ fs2 hcd
        have hg : fs2.isDir (cur ++ [c]) = true := by rw [hdir2]; simp
        have ih := create_dirs_loop_chain cs fs2 (cur ++ [c]) hg (fun k2 h0 hle => by
          have h2 := hfiles (k2 + 1) (by omega) (by simp; omega)
          rw [append_take_succ] at h2
          rw [hfile2]
          exact h2)
        cases k with
        | zero =>
          simp only [List.take_zero, List.append_nil]
          refine create_dirs_loop_mono cs fs2 (cur ++ [c]) cur ?_
          rw [hdir2]
          simp [hcur]
        | succ k2 =>
          rw [append_take_succ]
          exact ih k2 (by simp at hk; omega)

theorem create_directories_eq (fs : FS) (dst_root rest : List String) (h : rest ≠ []) :
    create_directories fs dst_root (dst_root ++ rest) =
      some (create_dirs_loop fs dst_root rest.dropLast) := by
  simp only [create_directories, parent_append dst_root rest h, strip_pref_append]

theorem copy_file_cases (fs : FS) (s d : List String) :
    copy_file fs s d = fs
    ∨ (∃ content, fs.file s = some content
        ∧ copy_file fs s d =
          { isDir := fs.isDir, file := fun x => if x = d then some content else fs.file x }) := by
  by_cases hsd : fs.isDir s = true
  · exact Or.inl (by simp [copy_file, fs_copy, hsd])
  · cases hfs : fs.file s with
    | none => exact Or.inl (by simp [copy_file, fs_copy, hsd, hfs])
    | some content =>
      by_cases hd : fs.isDir d = true
      · exact Or.inl (by simp [copy_file, fs_copy, hsd, hd, hfs])
      · cases hp : parent d with
        | none => exact Or.inl (by simp [copy_file, fs_copy, hsd, hd, hfs, hp])
        | some par =>
          by_cases hpd : fs.isDir par = true
          · exact Or.inr ⟨content, rfl, by simp [copy_file, fs_copy, hsd, hd, hfs, hp, hpd]⟩
          · exact Or.inl (by simp [copy_file, fs_copy, hsd, hd, hfs, hp, hpd])

theorem copy_file_succeeds (fs : FS) (s d : List String) (content : List Nat)
    (hs : fs.file s = some content) (hsd : fs.isDir s = false)
    (hd : fs.isDir d = false) (par : List String) (hpar : parent d = some par)
    (hpdir : fs.isDir par = true) :
    copy_file fs s d =
      { isDir := fs.isDir, file := fun x => if x = d then some content else fs.file x } := by
  rw [copy_file]
  have hc : fs_copy fs s d =
      .ok { isDir := fs.isDir, file := fun x => if x = d then some content else fs.file x } := by
    simp [fs_copy, hs, hsd, hd, hpar, hpdir]
  rw [hc]

theorem process_path_eq (fs : FS) (src dst rest : List String) (h : rest ≠ []) :
    process_path fs src dst (src ++ rest) =
      some (copy_file (create_dirs_loop fs dst rest.dropLast) (src ++ rest) (dst ++ rest)) := by
  simp only [process_path, strip_pref_append, create_directories_eq fs dst rest h]

theorem process_path_none (fs : FS) (src dst p : List String) (h : ¬ src <+: p) :
    process_path fs src dst p = none := by
  simp only [process_path, strip_pref_none src p h]

theorem foldl_step_none (src dst : List String) : ∀ ps : List (List String),
    ps.foldl (fun acc p => acc.bind fun g => process_path g src dst p) none = none
  | [] => rfl
  | q :: ps => by
    rw [List.foldl_cons]
    exact foldl_step_none src dst ps

theorem copy_files_cons (fs : FS) (src dst : List String) (q : List String)
    (ps : List (List String)) :
    copy_files fs src dst (q :: ps) =
      match process_path fs src dst q with
      | none => none
      | some g => copy_files g src dst ps := by
  rw [copy_files, List.foldl_cons]
  show ps.foldl _ (process_path fs src dst q) = _
  cases hq : process_path fs src dst q with
  | none => exact foldl_step_none src dst ps
  | some g => rfl

theorem copy_files_none_of_stray : ∀ (paths : List (List String)) (fs : FS)
    (src dst : List String), (∃ q ∈ paths, ¬ src <+: q) → copy_files fs src dst paths = none
  | [], fs, src, dst => by rintro ⟨q, hq, _⟩; simp at hq
  | q0 :: ps, fs, src, dst => by
    rintro ⟨q, hq, hnp⟩
    rw [copy_files_cons]
    rcases List.mem_cons.mp hq with rfl | hq2
    · rw [process_path_none fs src dst q hnp]
    · cases hp0 : process_path fs src dst q0 with
      | none => rfl
      | some g => exact copy_files_none_of_stray ps g src dst ⟨q, hq2, hnp⟩

theorem copy_files_some_of_proper : ∀ (paths : List (List String)) (fs : FS)
    (src dst : List String),
    (∀ q ∈ paths, ∃ r, r ≠ [] ∧ q = src ++ r) → ∃ g, copy_files fs src dst paths = some g
  | [], fs, src, dst => fun _ => ⟨fs, rfl⟩
  | q0 :: ps, fs, src, dst => by
    intro h
    obtain ⟨r, hr, hq⟩ := h q0 (by simp)
    subst hq
    rw [copy_files_cons, process_path_eq fs src dst r hr]
    exact copy_files_some_of_proper ps _ src dst fun q hq2 => h q (List.mem_cons_of_mem _ hq2)

/-- C10 counterexample: a path equal to src_directory itself satisfies the
claimed precondition (src_directory is a component-wise prefix of it), yet
copy_files still panics: for the path /a with src_directory /a and
dst_directory /b, the stripped remainder is empty, so create_directories
takes the parent of /b and then strip_prefix of /b from that parent fails,
and its unwrap panics (the none result). -/
theorem copy_files_src_itself_panics_cex :
    (["a"] : List String).isPrefixOf ["a"] = true
    ∧ copy_files (FS.mk (fun _ => false) (fun _ => none)) ["a"] ["b"] [["a"]] = none :=
  ⟨rfl, rfl⟩

/-- C10 amended: if any path of the batch does not have src_directory as a
component-wise prefix, the strip_prefix unwrap in copy_files panics and the
whole batch aborts; and under the strengthened precondition that every path
is a proper descendant of src_directory (src_directory a component-wise
prefix and strictly shorter), no unwrap in copy_files or create_directories
panics: the batch always completes with some final filesystem.  (The
counterexample shows the strengthening is needed: a path equal to
src_directory passes the original precondition but panics inside
create_directories.) -/
theorem copy_files_needs_proper_descendants (fs : FS) (src dst : List String)
    (paths : List (List String)) :
    ((∃ q ∈ paths, src.isPrefixOf q = false) → copy_files fs src dst paths = none)
    ∧ ((∀ q ∈ paths, src.isPrefixOf q = true ∧ src.length < q.length) →
        ∃ g, copy_files fs src dst paths = some g) := by
  constructor
  · rintro ⟨q, hq, hpf⟩
    refine copy_files_none_of_stray paths fs src dst ⟨q, hq, fun hc => ?_⟩
    have := (List.isPrefixOf_iff_prefix).mpr hc
    rw [hpf] at this
    exact Bool.false_ne_true this
  · intro h
    refine copy_files_some_of_proper paths fs src dst fun q hq => ?_
    obtain ⟨hpf, hlen⟩ := h q hq
    obtain ⟨r, hr⟩ := (List.isPrefixOf_iff_prefix).mp hpf
    refine ⟨r, ?_, hr.symm⟩
    rintro rfl
    rw [← hr] at hlen
    simp at hlen

/-- Witness for C10 amended: a batch containing the stray path /c (not
under the source /a) aborts with a panic; a batch whose single path /a/f is
a proper descendant of /a completes. -/
theorem copy_files_needs_proper_descendants_witness :
    copy_files (FS.mk (fun _ => false) (fun _ => none)) ["a"] ["b"] [["c"]] = none
    ∧ ∃ g, copy_files
        (FS.mk (fun x => decide (x = ([] : List String)) || decide (x = ["b"]))
          (fun _ => none)) ["a"] ["b"] [["a", "f"]] = some g :=
  ⟨(copy_files_needs_proper_descendants (FS.mk (fun _ => false) (fun _ => none))
      ["a"] ["b"] [["c"]]).1 (by decide),
   (copy_files_needs_proper_descendants
      (FS.mk (fun x => decide (x = ([] : List String)) || decide (x = ["b"]))
        (fun _ => none)) ["a"] ["b"] [["a", "f"]]).2 (by decide)⟩

theorem process_path_props (fs : FS) (src dst rest : List String) (h : rest ≠ []) :
    ∃ g, process_path fs src dst (src ++ rest) = some g
      ∧ (∀ x, x ≠ dst ++ rest → g.file x = fs.file x)
      ∧ (∀ x, fs.isDir x = true → g.isDir x = true)
      ∧ (∀ x, g.isDir x = true →
          fs.isDir x = true ∨ ∃ k, 0 < k ∧ k < rest.length ∧ x = dst ++ rest.take k)
      ∧ (g.file (dst ++ rest) = fs.file (dst ++ rest)
          ∨ ∃ c, fs.file (src ++ rest) = some c ∧ g.file (dst ++ rest) = some c) := by
  rw [process_path_eq fs src dst rest h]
  have hlp := List.length_pos.mpr h
  have hLfile : (create_dirs_loop fs dst rest.dropLast).file = fs.file :=
    create_dirs_loop_file _ fs dst
  have hLnew : ∀ x, (create_dirs_loop fs dst rest.dropLast).isDir x = true →
      fs.isDir x = true ∨ ∃ k, 0 < k ∧ k < rest.length ∧ x = dst ++ rest.take k := by
    intro x hx
    rcases create_dirs_loop_new _ fs dst x hx with h1 | ⟨k, hk0, hkle, hx2⟩
    · exact Or.inl h1
    · right
      rw [List.length_dropLast] at hkle
      refine ⟨k, hk0, by omega, ?_⟩
      rw [List.dropLast_eq_take, List.take_take, Nat.min_eq_left (by omega)] at hx2
      exact hx2
  rcases copy_file_cases (create_dirs_loop fs dst rest.dropLast) (src ++ rest) (dst ++ rest)
    with hcf | ⟨c, hc, hcf⟩
  · rw [hcf]
    refine ⟨_, rfl, ?_, ?_, hLnew, Or.inl (by rw [hLfile])⟩
    · intro x _
      rw [hLfile]
    · intro x hx
      exact create_dirs_loop_mono _ fs dst x hx
  · rw [hcf]
    refine ⟨_, rfl, ?_, ?_, ?_, ?_⟩
    · intro x hx
      show (if x = dst ++ rest then some c else _) = _
      rw [if_neg hx]
      exact congrFun hLfile x
    · intro x hx
      show (create_dirs_loop fs dst rest.dropLast).isDir x = true
      exact create_dirs_loop_mono _ fs dst x hx
    · intro x hx
      exact hLnew x hx
    · right
      refine ⟨c, ?_, ?_⟩
      · rw [← congrFun hLfile (src ++ rest)]
        exact hc
      · show (if dst ++ rest = dst ++ rest then some c else _) = some c
        rw [if_pos rfl]

/-- Invariant maintained by a copy_files batch: relative to the starting
filesystem fs, the current filesystem h has all of fs's directories, its
new directories are ancestor chains of destination paths of batch entries
(strictly below dst_directory), and its file changes happen only at
destination paths of batch entries. -/
structure CopyInv (fs h : FS) (src dst : List String) (paths : List (List String)) : Prop where
  mono : ∀ x, fs.isDir x = true → h.isDir x = true
  newDir : ∀ x, h.isDir x = true → fs.isDir x = true ∨
      ∃ q ∈ paths, ∃ rq, q = src ++ rq ∧ ∃ k, 0 < k ∧ k < rq.length ∧ x = dst ++ rq.take k
  fileChange : ∀ x, h.file x ≠ fs.file x → ∃ q ∈ paths, ∃ rq, q = src ++ rq ∧ x = dst ++ rq

/-- What holds for the tracked file p (relative remainder rest, original
bytes content) once its copy has succeeded: the destination file carries
the original content, the ancestor chain of the destination exists, and
the destination is not a directory. -/
structure CopyPost (h : FS) (dst rest : List String) (content : List Nat) : Prop where
  fileCopied : h.file (dst ++ rest) = some content
  dirs : ∀ k, k < rest.length → h.isDir (dst ++ rest.take k) = true
  notDir : h.isDir (dst ++ rest) = false

theorem copy_step_inv (fs h : FS) (src dst : List String) (paths : List (List String))
    (q rq : List String) (hq : q ∈ paths) (hrq : q = src ++ rq) (hrne : rq ≠ [])
    (hinv : CopyInv fs h src dst paths) :
    ∃ g, process_path h src dst q = some g ∧ CopyInv fs g src dst paths := by
  subst hrq
  obtain ⟨g, hg, hfile, hmono, hnew, hwrite⟩ := process_path_props h src dst rq hrne
  refine ⟨g, hg, ?_, ?_, ?_⟩
  · intro x hx
    exact hmono x (hinv.mono x hx)
  · intro x hx
    rcases hnew x hx with h1 | ⟨k, hk0, hklt, hx2⟩
    · exact hinv.newDir x h1
    · exact Or.inr ⟨src ++ rq, hq, rq, rfl, k, hk0, hklt, hx2⟩
  · intro x hx
    by_cases hxd : x = dst ++ rq
    · exact ⟨src ++ rq, hq, rq, rfl, hxd⟩
    · refine hinv.fileChange x ?_
      rw [← hfile x hxd]
      exact hx

theorem copy_step_post (fs h : FS) (src dst : List String) (paths : List (List String))
    (content : List Nat) (p rest q rq : List String)
    (hp : p ∈ paths) (hprest : p = src ++ rest)
    (hq : q ∈ paths) (hqrq : q = src ++ rq) (hrqne : rq ≠ [])
    (hnest : ∀ q2 ∈ paths, ¬ dst <+: q2)
    (hpair : ∀ q2 ∈ paths, ∀ q3 ∈ paths, q2 <+: q3 → q2 = q3)
    (hfsp : fs.file p = some content)
    (hinv : CopyInv fs h src dst paths)
    (hpost : CopyPost h dst rest content) :
    ∀ g, process_path h src dst q = some g → CopyPost g dst rest content := by
  intro g hg
  obtain ⟨g2, hg2, hfile, hmono, hnew, hwrite⟩ := process_path_props h src dst rq hrqne
  rw [hqrq, hg2] at hg
  injection hg with hgg
  subst hgg
  constructor
  · by_cases hdd : dst ++ rest = dst ++ rq
    · have hrr : rest = rq := List.append_cancel_left hdd
      subst hrr
      rcases hwrite with hw | ⟨c, hc, hw⟩
      · rw [hdd] at hw ⊢
        rw [hw]
        rw [← hdd]
        exact hpost.fileCopied
      · rw [hdd]
        rw [hw]
        have hfix : h.file (src ++ rest) = fs.file (src ++ rest) := by
          by_contra hne
          obtain ⟨q2, hq2, rq2, hq2e, hxe⟩ := hinv.fileChange _ hne
          exact hnest p hp (hprest ▸ ⟨rq2, hxe.symm⟩)
        rw [hfix, ← hprest, hfsp] at hc
        injection hc with hcc
        subst hcc
        rfl
    · rw [hfile (dst ++ rest) (fun hc => hdd hc)]
      exact hpost.fileCopied
  · intro k hk
    exact hmono _ (hpost.dirs k hk)
  · cases hgd : g2.isDir (dst ++ rest) with
    | false => rfl
    | true =>
      rcases hnew _ hgd with h1 | ⟨k, hk0, hklt, hx2⟩
      · exact absurd h1 (by simp [hpost.notDir])
      · have hrtake : rest = rq.take k := List.append_cancel_left hx2
        have hpref : p <+: q := by
          rw [hprest, hqrq, hrtake]
          exact ⟨rq.drop k, by rw [List.append_assoc, List.take_append_drop]⟩
        have hpq : p = q := hpair p hp q hq hpref
        rw [hprest, hqrq] at hpq
        have hre : rest = rq := List.append_cancel_left hpq
        rw [hre] at hrtake
        have hlen := congrArg List.length hrtake
        rw [List.length_take] at hlen
        omega

theorem copy_files_append (fs : FS) (src dst : List String) (l1 l2 : List (List String)) :
    copy_files fs src dst (l1 ++ l2) =
      match copy_files fs src dst l1 with
      | none => none
      | some g => copy_files g src dst l2 := by
  rw [copy_files, List.foldl_append]
  cases hg : copy_files fs src dst l1 with
  | none =>
    rw [copy_files] at hg
    rw [hg]
    exact foldl_step_none src dst l2
  | some g =>
    rw [copy_files] at hg
    rw [hg]
    rfl

theorem copy_batch_inv (fs : FS) (src dst : List String) (paths : List (List String))
    (hpaths : ∀ q ∈ paths, ∃ r, r ≠ [] ∧ q = src ++ r) :
    ∀ (ps : List (List String)), (∀ q ∈ ps, q ∈ paths) → ∀ h : FS,
      CopyInv fs h src dst paths →
      ∃ h2, copy_files h src dst ps = some h2 ∧ CopyInv fs h2 src dst paths
  | [] => fun _ h hinv => ⟨h, rfl, hinv⟩
  | q0 :: ps => by
    intro hps h hinv
    obtain ⟨r, hrne, hq⟩ := hpaths q0 (hps q0 (by simp))
    obtain ⟨g, hg, hginv⟩ :=
      copy_step_inv fs h src dst paths q0 r (hps q0 (by simp)) hq hrne hinv
    rw [copy_files_cons, hg]
    exact copy_batch_inv fs src dst paths hpaths ps
      (fun q hq2 => hps q (List.mem_cons_of_mem _ hq2)) g hginv

theorem copy_batch_post (fs : FS) (src dst : List String) (paths : List (List String))
    (content : List Nat) (p rest : List String)
    (hpaths : ∀ q ∈ paths, ∃ r, r ≠ [] ∧ q = src ++ r)
    (hnest : ∀ q ∈ paths, ¬ dst <+: q)
    (hpair : ∀ q2 ∈ paths, ∀ q3 ∈ paths, q2 <+: q3 → q2 = q3)
    (hp : p ∈ paths) (hprest : p = src ++ rest)
    (hfsp : fs.file p = some content) :
    ∀ (ps : List (List String)), (∀ q ∈ ps, q ∈ paths) → ∀ h : FS,
      CopyInv fs h src dst paths → CopyPost h dst rest content →
      ∃ h2, copy_files h src dst ps = some h2 ∧ CopyInv fs h2 src dst paths
        ∧ CopyPost h2 dst rest content
  | [] => fun _ h hinv hpost => ⟨h, rfl, hinv, hpost⟩
  | q0 :: ps => by
    intro hps h hinv hpost
    obtain ⟨r, hrne, hq⟩ := hpaths q0 (hps q0 (by simp))
    obtain ⟨g, hg, hginv⟩ :=
      copy_step_inv fs h src dst paths q0 r (hps q0 (by simp)) hq hrne hinv
    have hgpost := copy_step_post fs h src dst paths content p rest q0 r hp hprest
      (hps q0 (by simp)) hq hrne hnest hpair hfsp hinv hpost g hg
    rw [copy_files_cons, hg]
    exact copy_batch_post fs src dst paths content p rest hpaths hnest hpair hp hprest hfsp ps
      (fun q hq2 => hps q (List.mem_cons_of_mem _ hq2)) g hginv hgpost

theorem process_path_success (h : FS) (src dst p rest : List String) (content : List Nat)
    (hprest : p = src ++ rest) (hrestne : rest ≠ []) (hnestp : ¬ dst <+: p)
    (hdst : h.isDir dst = true)
    (hanc : ∀ k, 0 < k → k < rest.length → h.file (dst ++ rest.take k) = none)
    (hfilep : h.file p = some content) (hpnd : h.isDir p = false)
    (htgt : h.isDir (dst ++ rest) = false) :
    ∃ g, process_path h src dst p = some g ∧ CopyPost g dst rest content := by
  subst hprest
  rw [process_path_eq h src dst rest hrestne]
  have hlp := List.length_pos.mpr hrestne
  have hLfile : (create_dirs_loop h dst rest.dropLast).file = h.file :=
    create_dirs_loop_file _ h dst
  have hchain : ∀ k, k ≤ rest.dropLast.length →
      (create_dirs_loop h dst rest.dropLast).isDir (dst ++ rest.dropLast.take k) = true := by
    refine create_dirs_loop_chain _ h dst hdst ?_
    intro k hk0 hkle
    rw [List.length_dropLast] at hkle
    rw [List.dropLast_eq_take, List.take_take, Nat.min_eq_left (by omega)]
    exact hanc k hk0 (by omega)
  have hchain2 : ∀ k, k < rest.length →
      (create_dirs_loop h dst rest.dropLast).isDir (dst ++ rest.take k) = true := by
    intro k hk
    have htk : rest.dropLast.take k = rest.take k := by
      rw [List.dropLast_eq_take, List.take_take, Nat.min_eq_left (by omega)]
    rw [← htk]
    exact hchain k (by rw [List.length_dropLast]; omega)
  have hLtgt : (create_dirs_loop h dst rest.dropLast).isDir (dst ++ rest) = false := by
    cases hv : (create_dirs_loop h dst rest.dropLast).isDir (dst ++ rest) with
    | false => rfl
    | true =>
      rcases create_dirs_loop_new _ h dst _ hv with h1 | ⟨k, hk0, hkle, hx2⟩
      · exact absurd h1 (by simp [htgt])
      · have hrr := List.append_cancel_left hx2
        rw [List.length_dropLast] at hkle
        have hlen := congrArg List.length hrr
        rw [List.length_take, List.length_dropLast] at hlen
        omega
  have hpar : parent (dst ++ rest) = some (dst ++ rest.dropLast) := parent_append dst rest hrestne
  have hpardir : (create_dirs_loop h dst rest.dropLast).isDir (dst ++ rest.dropLast) = true := by
    have := hchain rest.dropLast.length (le_refl _)
    rwa [List.take_length] at this
  have hLp_file : (create_dirs_loop h dst rest.dropLast).file (src ++ rest) = some content := by
    rw [hLfile]
    exact hfilep
  have hLp_nd : (create_dirs_loop h dst rest.dropLast).isDir (src ++ rest) = false := by
    cases hv : (create_dirs_loop h dst rest.dropLast).isDir (src ++ rest) with
    | false => rfl
    | true =>
      rcases create_dirs_loop_new _ h dst _ hv with h1 | ⟨k, hk0, hkle, hx2⟩
      · exact absurd h1 (by simp [hpnd])
      · exact absurd (show dst <+: src ++ rest from ⟨_, hx2.symm⟩) hnestp
  rw [copy_file_succeeds (create_dirs_loop h dst rest.dropLast) (src ++ rest) (dst ++ rest)
    content hLp_file hLp_nd hLtgt _ hpar hpardir]
  refine ⟨_, rfl, ?_, ?_, ?_⟩
  · show (if dst ++ rest = dst ++ rest then some content else _) = some content
    rw [if_pos rfl]
  · intro k hk
    show (create_dirs_loop h dst rest.dropLast).isDir (dst ++ rest.take k) = true
    exact hchain2 k hk
  · show (create_dirs_loop h dst rest.dropLast).isDir (dst ++ rest) = false
    exact hLtgt

/-- C5: after copy_files, for a path p of the batch that existed as a
regular file (original bytes content) and was copyable (its destination's
ancestor slots are free in the starting filesystem and the destination is
not a directory), the destination path dst_directory ++ rest (with rest
the remainder of p after src_directory, i.e. dst/relative(P, src)) is a
regular file with exactly the original content, and every intermediate
directory on that relative path exists under dst_directory; moreover the
whole batch completes without aborting (per-file failures of other paths
are only logged and skipped).  The hypotheses require all batch paths to be
proper descendants of src_directory, outside the destination subtree, and
mutually prefix-free, which is how find_files_to_copy produces them. -/
theorem copy_files_copies_each_file (fs : FS) (src dst : List String)
    (paths : List (List String)) (p rest : List String) (content : List Nat)
    (hpaths : ∀ q ∈ paths, src.isPrefixOf q = true ∧ src.length < q.length)
    (hnest : ∀ q ∈ paths, dst.isPrefixOf q = false)
    (hpair : ∀ q ∈ paths, ∀ q2 ∈ paths, q.isPrefixOf q2 = true → q = q2)
    (hp : p ∈ paths) (hprest : p = src ++ rest) (hrestne : rest ≠ [])
    (hdst : fs.isDir dst = true)
    (hfilep : fs.file p = some content) (hpnd : fs.isDir p = false)
    (hanc : ∀ k ∈ List.range rest.length, 0 < k → fs.file (dst ++ rest.take k) = none)
    (htgt : fs.isDir (dst ++ rest) = false) :
    ∃ g, copy_files fs src dst paths = some g
      ∧ g.file (dst ++ rest) = some content
      ∧ g.isDir (dst ++ rest) = false
      ∧ (∀ k ∈ List.range rest.length, g.isDir (dst ++ rest.take k) = true) := by
  have hpaths' : ∀ q ∈ paths, ∃ r, r ≠ [] ∧ q = src ++ r := by
    intro q hq
    obtain ⟨hpf, hlen⟩ := hpaths q hq
    obtain ⟨r, hr⟩ := (List.isPrefixOf_iff_prefix).mp hpf
    refine ⟨r, ?_, hr.symm⟩
    rintro rfl
    rw [← hr] at hlen
    simp at hlen
  have hnest' : ∀ q ∈ paths, ¬ dst <+: q := by
    intro q hq hc
    have h2 := (List.isPrefixOf_iff_prefix).mpr hc
    rw [hnest q hq] at h2
    exact Bool.false_ne_true h2
  have hpair' : ∀ q ∈ paths, ∀ q2 ∈ paths, q <+: q2 → q = q2 := fun q hq q2 hq2 hc =>
    hpair q hq q2 hq2 ((List.isPrefixOf_iff_prefix).mpr hc)
  have hanc' : ∀ k, 0 < k → k < rest.length → fs.file (dst ++ rest.take k) = none :=
    fun k h0 hlt => hanc k (List.mem_range.mpr hlt) h0
  obtain ⟨l1, l2, hsplit⟩ := List.append_of_mem hp
  have hinv0 : CopyInv fs fs src dst paths :=
    ⟨fun _ hx => hx, fun _ hx => Or.inl hx, fun _ hx => absurd rfl hx⟩
  have hsub1 : ∀ q ∈ l1, q ∈ paths := fun q hq => by
    rw [hsplit]
    exact List.mem_append_left _ hq
  obtain ⟨h1, hfold1, hinv1⟩ := copy_batch_inv fs src dst paths hpaths' l1 hsub1 fs hinv0
  have hfile1 : h1.file p = some content := by
    by_cases hch : h1.file p = fs.file p
    · rw [hch]
      exact hfilep
    · obtain ⟨q2, hq2, rq2, hq2e, hxe⟩ := hinv1.fileChange p hch
      exact absurd (show dst <+: p from ⟨rq2, hxe.symm⟩) (hnest' p hp)
  have hpnd1 : h1.isDir p = false := by
    cases hv : h1.isDir p with
    | false => rfl
    | true =>
      rcases hinv1.newDir p hv with h1d | ⟨q2, hq2, rq2, hq2e, k, hk0, hklt, hx2⟩
      · exact absurd h1d (by simp [hpnd])
      · exact absurd (show dst <+: p from ⟨_, hx2.symm⟩) (hnest' p hp)
  have hdst1 : h1.isDir dst = true := hinv1.mono dst hdst
  have hanc1 : ∀ k, 0 < k → k < rest.length → h1.file (dst ++ rest.take k) = none := by
    intro k h0 hlt
    by_cases hch : h1.file (dst ++ rest.take k) = fs.file (dst ++ rest.take k)
    · rw [hch]
      exact hanc' k h0 hlt
    · obtain ⟨q2, hq2, rq2, hq2e, hxe⟩ := hinv1.fileChange _ hch
      have hrr : rest.take k = rq2 := List.append_cancel_left hxe
      have hq2p : q2 <+: p := by
        rw [hq2e, ← hrr, hprest]
        exact ⟨rest.drop k, by rw [List.append_assoc, List.take_append_drop]⟩
      have heq := hpair' q2 hq2 p hp hq2p
      rw [hq2e, ← hrr, hprest] at heq
      have h2 : rest.take k = rest := List.append_cancel_left heq
      have h3 := congrArg List.length h2
      rw [List.length_take] at h3
      omega
  have htgt1 : h1.isDir (dst ++ rest) = false := by
    cases hv : h1.isDir (dst ++ rest) with
    | false => rfl
    | true =>
      rcases hinv1.newDir _ hv with h1d | ⟨q2, hq2, rq2, hq2e, k, hk0, hklt, hx2⟩
      · exact absurd h1d (by simp [htgt])
      · have hrr : rest = rq2.take k := List.append_cancel_left hx2
        have hpq2 : p <+: q2 := by
          rw [hprest, hq2e, hrr]
          exact ⟨rq2.drop k, by rw [List.append_assoc, List.take_append_drop]⟩
        have heq := hpair' p hp q2 hq2 hpq2
        rw [hprest, hq2e] at heq
        have h2 : rest = rq2 := List.append_cancel_left heq
        rw [h2] at hrr
        have h3 := congrArg List.length hrr
        rw [List.length_take] at h3
        omega
  obtain ⟨g2, hg2, hpost2⟩ := process_path_success h1 src dst p rest content hprest hrestne
    (hnest' p hp) hdst1 hanc1 hfile1 hpnd1 htgt1
  obtain ⟨g2', hg2', hginv⟩ :=
    copy_step_inv fs h1 src dst paths p rest hp hprest hrestne hinv1
  rw [hg2] at hg2'
  injection hg2' with hgg
  subst hgg
  have hsub2 : ∀ q ∈ l2, q ∈ paths := fun q hq => by
    rw [hsplit]
    exact List.mem_append_right _ (List.mem_cons_of_mem _ hq)
  obtain ⟨hfin, hfold2, hinvf, hpostf⟩ := copy_batch_post fs src dst paths content p rest
    hpaths' hnest' hpair' hp hprest hfilep l2 hsub2 g2 hginv hpost2
  have e1 : copy_files fs src dst paths = copy_files h1 src dst (p :: l2) := by
    rw [hsplit, copy_files_append, hfold1]
  have e2 : copy_files h1 src dst (p :: l2) = copy_files g2 src dst l2 := by
    rw [copy_files_cons, hg2]
  refine ⟨hfin, ?_, hpostf.fileCopied, hpostf.notDir,
    fun k hk => hpostf.dirs k (List.mem_range.mp hk)⟩
  rw [e1, e2, hfold2]

/-- The starting filesystem of the C5 witness: directories /, /s, /s/sub
and /d exist, and the single file /s/sub/a.txt holds the bytes 1, 2. -/
def c5_fs : FS :=
  FS.mk
    (fun x => decide (x = ([] : List String)) || decide (x = ["s"]) ||
      decide (x = ["s", "sub"]) || decide (x = ["d"]))
    (fun x => if x = ["s", "sub", "a.txt"] then some [1, 2] else none)

/-- Witness for C5 at a concrete batch: copying /s/sub/a.txt from /s to /d
creates /d/sub/a.txt with the original bytes and the intermediate
directory /d/sub. -/
theorem copy_files_copies_each_file_witness :
    ∃ g, copy_files c5_fs ["s"] ["d"] [["s", "sub", "a.txt"]] = some g
      ∧ g.file (["d"] ++ ["sub", "a.txt"]) = some [1, 2]
      ∧ g.isDir (["d"] ++ ["sub", "a.txt"]) = false
      ∧ (∀ k ∈ List.range (["sub", "a.txt"] : List String).length,
          g.isDir (["d"] ++ (["sub", "a.txt"] : List String).take k) = true) :=
  copy_files_copies_each_file c5_fs ["s"] ["d"] [["s", "sub", "a.txt"]]
    ["s", "sub", "a.txt"] ["sub", "a.txt"] [1, 2] (by decide) (by decide) (by decide)
    (by decide) (by decide) (by decide) (by decide) (by decide) (by decide) (by decide)
    (by decide)
